import Mathlib

/-!
Verification of the `simple-undo` Rust crate (`src/lib.rs`).

The crate provides a generic container `Undo<TState>` wrapping a cloneable
state together with a log of recorded mutation closures and a cursor
`nb_updates` counting how many of them are currently applied.  Operations are
`Fn(&mut TState)` closures assumed pure and deterministic, so we embed them as
Lean functions `α → α` and embed each method of the `impl` block as a pure
Lean function on a record.  Rust indexing/slicing that can panic is embedded
as `Option`-returning functions (`none` = panic).
-/

universe u

variable {α : Type u}

/-- Embedding of `struct Undo<TState>` from `src/lib.rs`:
`initial_state`, `current_state`, the vector `updates` of boxed closures and
the cursor `nb_updates`. -/
structure Undo (α : Type u) where
  initial_state : α
  current_state : α
  updates : List (α → α)
  nb_updates : Nat

/-- Replaying a list of update closures over a state, in order.  This is the
loop `for update_fn in self.updates[..self.nb_updates] { update_fn(&mut s) }`
appearing in `Undo::undo`. -/
def replay (s : α) (fs : List (α → α)) : α :=
  fs.foldl (fun a f => f a) s

/-- Embedding of `Undo::new`: clones the given state into `current_state`,
moves it into `initial_state`, with an empty update vector and a zero
cursor.  Cloning a value is the identity in the value-semantics embedding. -/
def Undo.new (state : α) : Undo α :=
  { current_state := state
    initial_state := state
    updates := []
    nb_updates := 0 }

/-- Embedding of `Undo::unwrap`: consumes the container and returns
`current_state` by value. -/
def Undo.unwrap (u : Undo α) : α :=
  u.current_state

/-- Embedding of `<Undo as Deref>::deref`: the read-only view
`&self.current_state`. -/
def Undo.deref (u : Undo α) : α :=
  u.current_state

/-- Embedding of `Undo::update`: when the cursor is not at the end of the
vector, truncate the vector to the cursor (`Vec::truncate` = `List.take`);
then apply the closure to `current_state`, push it, and increment the
cursor. -/
def Undo.update (u : Undo α) (update_fn : α → α) : Undo α :=
  let kept := if u.nb_updates ≠ u.updates.length
    then u.updates.take u.nb_updates
    else u.updates
  { u with
    current_state := update_fn u.current_state
    updates := kept ++ [update_fn]
    nb_updates := u.nb_updates + 1 }

/-- Embedding of `Undo::undo`: a no-op when the cursor is `0`; otherwise
decrement the cursor and recompute `current_state` by replaying the slice
`self.updates[..self.nb_updates]` over a clone of `initial_state`.  The Rust
slice `[..n]` panics when `n` exceeds the vector length, embedded as
`none`. -/
def Undo.undo (u : Undo α) : Option (Undo α) :=
  if u.nb_updates = 0 then some u
  else
    let n := u.nb_updates - 1
    if n ≤ u.updates.length then
      some { u with
        nb_updates := n
        current_state := replay u.initial_state (u.updates.take n) }
    else none

/-- Embedding of `Undo::redo`: a no-op when the cursor is at the end of the
vector; otherwise invoke `self.updates[self.nb_updates]` on `current_state`
and increment the cursor.  The Rust index panics when out of bounds,
embedded as `none`. -/
def Undo.redo (u : Undo α) : Option (Undo α) :=
  if u.nb_updates = u.updates.length then some u
  else
    match u.updates[u.nb_updates]? with
    | some update_fn =>
        some { u with
          current_state := update_fn u.current_state
          nb_updates := u.nb_updates + 1 }
    | none => none

/-- `undo` iterated `k` times, propagating a panic. -/
def Undo.undoN : Nat → Undo α → Option (Undo α)
  | 0, u => some u
  | k + 1, u =>
    match u.undo with
    | some v => Undo.undoN k v
    | none => none

/-- `redo` iterated `k` times, propagating a panic. -/
def Undo.redoN : Nat → Undo α → Option (Undo α)
  | 0, u => some u
  | k + 1, u =>
    match u.redo with
    | some v => Undo.redoN k v
    | none => none

/-- The structural bound maintained by the container: the cursor never
exceeds the length of the update vector. -/
def Undo.Wf (u : Undo α) : Prop :=
  u.nb_updates ≤ u.updates.length

/-- The core replay invariant of the spec: `current_state` equals the replay
of the first `nb_updates` recorded updates over a fresh copy of
`initial_state`. -/
def Undo.Inv (u : Undo α) : Prop :=
  u.current_state = replay u.initial_state (u.updates.take u.nb_updates)

/-- Containers reachable from `Undo::new` by any sequence of
`update` / `undo` / `redo` calls that do not panic. -/
inductive Undo.Reachable : Undo α → Prop
  | new (s : α) : Undo.Reachable (Undo.new s)
  | update {u : Undo α} (f : α → α) :
      Undo.Reachable u → Undo.Reachable (u.update f)
  | undo {u v : Undo α} :
      Undo.Reachable u → u.undo = some v → Undo.Reachable v
  | redo {u v : Undo α} :
      Undo.Reachable u → u.redo = some v → Undo.Reachable v

/-! ### Helper lemmas about the embedded operations -/

theorem replay_append (s : α) (fs gs : List (α → α)) :
    replay s (fs ++ gs) = replay (replay s fs) gs := by
  simp [replay, List.foldl_append]

theorem Undo.update_def (u : Undo α) (f : α → α) :
    u.update f =
      { u with
        current_state := f u.current_state
        updates := u.updates.take u.nb_updates ++ [f]
        nb_updates := u.nb_updates + 1 } := by
  unfold Undo.update
  by_cases h : u.nb_updates = u.updates.length <;> simp [h]

theorem Undo.update_wf {u : Undo α} (hw : u.Wf) (f : α → α) :
    (u.update f).Wf := by
  rw [Undo.update_def]
  simp [Undo.Wf] at hw ⊢
  omega

theorem Undo.update_inv {u : Undo α} (hw : u.Wf) (hi : u.Inv) (f : α → α) :
    (u.update f).Inv := by
  rw [Undo.update_def]
  simp only [Undo.Inv] at hi ⊢
  have hlen : (u.updates.take u.nb_updates).length = u.nb_updates := by
    simp [Undo.Wf] at hw
    simp [hw]
  rw [List.take_of_length_le (by simp [hlen]), replay_append, ← hi]
  simp [replay]

theorem Undo.undo_of_pos {u : Undo α} (hw : u.Wf) (h : u.nb_updates ≠ 0) :
    u.undo = some { u with
      nb_updates := u.nb_updates - 1
      current_state :=
        replay u.initial_state (u.updates.take (u.nb_updates - 1)) } := by
  simp [Undo.Wf] at hw
  simp [Undo.undo, h]
  omega

theorem Undo.undo_some {u : Undo α} (hw : u.Wf) :
    ∃ v, u.undo = some v ∧ v.Wf ∧ (u.Inv → v.Inv) ∧
      v.updates = u.updates ∧ v.initial_state = u.initial_state := by
  by_cases h : u.nb_updates = 0
  · exact ⟨u, by simp [Undo.undo, h], hw, fun hi => hi, rfl, rfl⟩
  · refine ⟨_, Undo.undo_of_pos hw h, ?_, fun _ => ?_, rfl, rfl⟩
    · simp [Undo.Wf] at hw ⊢
      omega
    · simp [Undo.Inv]

theorem Undo.redo_of_lt {u : Undo α} (h : u.nb_updates < u.updates.length) :
    u.redo = some { u with
      current_state :=
        (u.updates.get ⟨u.nb_updates, h⟩) u.current_state
      nb_updates := u.nb_updates + 1 } := by
  simp [Undo.redo, Nat.ne_of_lt h, List.getElem?_eq_getElem h]

theorem Undo.redo_some {u : Undo α} (hw : u.Wf) (hi : u.Inv) :
    ∃ v, u.redo = some v ∧ v.Wf ∧ v.Inv ∧
      v.updates = u.updates ∧ v.initial_state = u.initial_state := by
  by_cases h : u.nb_updates = u.updates.length
  · exact ⟨u, by simp [Undo.redo, h], hw, hi, rfl, rfl⟩
  · have hlt : u.nb_updates < u.updates.length :=
      lt_of_le_of_ne hw h
    refine ⟨_, Undo.redo_of_lt hlt, ?_, ?_, rfl, rfl⟩
    · simp [Undo.Wf] at hw ⊢
      omega
    · simp only [Undo.Inv] at hi ⊢
      simp only [List.take_succ, List.getElem?_eq_getElem hlt, Option.toList_some]
      rw [replay_append, ← hi]
      simp [replay]

theorem Undo.reachable_wf_inv {u : Undo α} (h : u.Reachable) :
    u.Wf ∧ u.Inv := by
  induction h with
  | new s => exact ⟨Nat.le_refl 0, rfl⟩
  | update f _ ih => exact ⟨Undo.update_wf ih.1 f, Undo.update_inv ih.1 ih.2 f⟩
  | undo _ hv ih =>
      obtain ⟨w, hw, hwf, hinv, _, _⟩ := Undo.undo_some ih.1
      rw [hv] at hw
      cases hw
      exact ⟨hwf, hinv ih.2⟩
  | redo _ hv ih =>
      obtain ⟨w, hw, hwf, hinv, _, _⟩ := Undo.redo_some ih.1 ih.2
      rw [hv] at hw
      cases hw
      exact ⟨hwf, hinv⟩

theorem Undo.undo_at_start {u : Undo α} (h : u.nb_updates = 0) :
    u.undo = some u := by
  simp [Undo.undo, h]

theorem Undo.redo_at_end {u : Undo α} (h : u.nb_updates = u.updates.length) :
    u.redo = some u := by
  simp [Undo.redo, h]

theorem Undo.undoN_at_start {u : Undo α} (h : u.nb_updates = 0) (m : Nat) :
    Undo.undoN m u = some u := by
  induction m with
  | zero => rfl
  | succ m ih => simp [Undo.undoN, Undo.undo_at_start h, ih]

theorem Undo.redoN_at_end {u : Undo α} (h : u.nb_updates = u.updates.length)
    (m : Nat) : Undo.redoN m u = some u := by
  induction m with
  | zero => rfl
  | succ m ih => simp [Undo.redoN, Undo.redo_at_end h, ih]

theorem Undo.undoN_some (k : Nat) {u : Undo α} (hw : u.Wf) :
    ∃ v, Undo.undoN k u = some v ∧ v.Wf := by
  induction k generalizing u with
  | zero => exact ⟨u, rfl, hw⟩
  | succ k ih =>
      obtain ⟨v, hv, hvw, -, -, -⟩ := Undo.undo_some hw
      obtain ⟨w, hchain, hww⟩ := ih hvw
      exact ⟨w, by simp [Undo.undoN, hv, hchain], hww⟩

theorem Undo.update_full {u : Undo α} (hw : u.Wf) (f : α → α) :
    (u.update f).nb_updates = (u.update f).updates.length := by
  rw [Undo.update_def]
  simp [Undo.Wf] at hw
  simp [List.length_take]
  omega

theorem replay_take_get (l : List (α → α)) (n : Nat) (h : n < l.length)
    (s : α) :
    replay s (l.take (n + 1)) = (l.get ⟨n, h⟩) (replay s (l.take n)) := by
  rw [List.take_succ, List.getElem?_eq_getElem h, Option.toList_some,
    replay_append]
  simp [replay]

/-! ### Claim theorems -/

/-- C1: for every container reachable from construction by any sequence of
`update` / `undo` / `redo` calls, `current_state` equals the replay of the
first `nb_updates` recorded updates over a fresh copy of `initial_state`;
in particular after `N` updates it equals the result of applying all `N`
operations in order to a fresh copy of the initial state. -/
theorem C1_replay_invariant {u : Undo α} (h : u.Reachable) :
    u.current_state = replay u.initial_state (u.updates.take u.nb_updates) :=
  (Undo.reachable_wf_inv h).2

/-- Witness for C1 at the container built by two updates from `Undo.new 0`. -/
theorem C1_witness :
    (((Undo.new (0 : Nat)).update fun n => n + 10).update
        fun n => n - 3).current_state =
      replay
        (((Undo.new (0 : Nat)).update fun n => n + 10).update
          fun n => n - 3).initial_state
        ((((Undo.new (0 : Nat)).update fun n => n + 10).update
            fun n => n - 3).updates.take
          (((Undo.new (0 : Nat)).update fun n => n + 10).update
            fun n => n - 3).nb_updates) :=
  C1_replay_invariant
    (Undo.Reachable.update _ (Undo.Reachable.update _ (Undo.Reachable.new 0)))

/-- C2: `update` truncates the log to the first `nb_updates` entries (a no-op
truncation when the cursor is already at the end), applies the operation to
`current_state`, appends it, increments the cursor, and restores
`nb_updates = updates.length`. -/
theorem C2_update_contract {u : Undo α} (hw : u.Wf) (f : α → α) :
    (u.update f).updates = u.updates.take u.nb_updates ++ [f] ∧
    (u.update f).current_state = f u.current_state ∧
    (u.update f).nb_updates = u.nb_updates + 1 ∧
    (u.update f).nb_updates = (u.update f).updates.length := by
  refine ⟨?_, ?_, ?_, Undo.update_full hw f⟩ <;> simp [Undo.update_def]

/-- Witness for C2 at a container with one undone update pending. -/
theorem C2_witness :
    ((⟨0, 5, [fun n => n + 5, fun n => n * 2], 1⟩ : Undo Nat).update
        fun n => n * 3).updates =
      (⟨0, 5, [fun n => n + 5, fun n => n * 2], 1⟩ : Undo Nat).updates.take 1
        ++ [fun n => n * 3] ∧
    ((⟨0, 5, [fun n => n + 5, fun n => n * 2], 1⟩ : Undo Nat).update
        fun n => n * 3).current_state = 15 ∧
    ((⟨0, 5, [fun n => n + 5, fun n => n * 2], 1⟩ : Undo Nat).update
        fun n => n * 3).nb_updates = 2 ∧
    ((⟨0, 5, [fun n => n + 5, fun n => n * 2], 1⟩ : Undo Nat).update
        fun n => n * 3).nb_updates =
      ((⟨0, 5, [fun n => n + 5, fun n => n * 2], 1⟩ : Undo Nat).update
        fun n => n * 3).updates.length :=
  C2_update_contract (by show (1 : Nat) ≤ 2 ; decide) _

/-- C3: `undo` is the identity when the cursor is `0`; otherwise it
decrements the cursor by one and recomputes `current_state` by replaying the
remaining prefix of the unchanged log over `initial_state`. -/
theorem C3_undo_contract {u : Undo α} (hw : u.Wf) :
    (u.nb_updates = 0 → u.undo = some u) ∧
    (u.nb_updates ≠ 0 →
      u.undo = some { u with
        nb_updates := u.nb_updates - 1
        current_state :=
          replay u.initial_state (u.updates.take (u.nb_updates - 1)) }) :=
  ⟨fun h => Undo.undo_at_start h, fun h => Undo.undo_of_pos hw h⟩

/-- Witness for C3 at a one-update container: undoing it restores the
initial state and keeps the log. -/
theorem C3_witness :
    (⟨0, 7, [fun n => n + 7], 1⟩ : Undo Nat).undo =
      some ⟨0, 0, [fun n => n + 7], 0⟩ :=
  (C3_undo_contract (by show (1 : Nat) ≤ 1 ; decide)).2 (by decide)

/-- C4: on a reachable container, `redo` is the identity when the cursor is
at the end of the log; otherwise it applies `updates[nb_updates]` directly
to `current_state` and increments the cursor, and the resulting state equals
the replay of the first `nb_updates + 1` updates over a fresh copy of
`initial_state`. -/
theorem C4_redo_contract {u : Undo α} (h : u.Reachable) :
    (u.nb_updates = u.updates.length → u.redo = some u) ∧
    ∀ hlt : u.nb_updates < u.updates.length,
      u.redo = some { u with
        current_state := (u.updates.get ⟨u.nb_updates, hlt⟩) u.current_state
        nb_updates := u.nb_updates + 1 } ∧
      (u.updates.get ⟨u.nb_updates, hlt⟩) u.current_state =
        replay u.initial_state (u.updates.take (u.nb_updates + 1)) := by
  refine ⟨fun he => Undo.redo_at_end he, fun hlt => ⟨Undo.redo_of_lt hlt, ?_⟩⟩
  have hi := (Undo.reachable_wf_inv h).2
  simp only [Undo.Inv] at hi
  rw [replay_take_get u.updates u.nb_updates hlt, ← hi]

/-- Witness for C4 at a fully undone one-update container, reached by
`new`, `update`, `undo`. -/
theorem C4_witness :
    (⟨0, 0, [fun n => n + 10], 0⟩ : Undo Nat).redo =
        some ⟨0, 10, [fun n => n + 10], 1⟩ ∧
      (10 : Nat) = replay 0 (List.take 1 [fun n => n + 10]) :=
  (C4_redo_contract (Undo.Reachable.undo
      (Undo.Reachable.update _ (Undo.Reachable.new (0 : Nat)))
      rfl)).2 (by decide)

/-- C5: on a reachable container with at least one applied update, `undo`
followed by `redo` restores `current_state`, the cursor and the log to
their values before the pair. -/
theorem C5_undo_redo_inverse {u : Undo α} (h : u.Reachable)
    (hpos : 1 ≤ u.nb_updates) :
    ∃ v w, u.undo = some v ∧ v.redo = some w ∧
      w.current_state = u.current_state ∧
      w.nb_updates = u.nb_updates ∧
      w.updates = u.updates ∧
      w.initial_state = u.initial_state := by
  obtain ⟨hw, hi⟩ := Undo.reachable_wf_inv h
  have hne : u.nb_updates ≠ 0 := by omega
  have hlt : u.nb_updates - 1 < u.updates.length := by
    simp only [Undo.Wf] at hw
    omega
  refine ⟨_, _, Undo.undo_of_pos hw hne, Undo.redo_of_lt hlt, ?_, ?_, rfl, rfl⟩
  · show (u.updates.get ⟨u.nb_updates - 1, hlt⟩)
        (replay u.initial_state (u.updates.take (u.nb_updates - 1)))
      = u.current_state
    have hr := replay_take_get u.updates (u.nb_updates - 1) hlt u.initial_state
    have hsucc : u.nb_updates - 1 + 1 = u.nb_updates := by omega
    rw [hsucc] at hr
    simp only [Undo.Inv] at hi
    rw [← hr, ← hi]
  · show u.nb_updates - 1 + 1 = u.nb_updates
    omega

/-- Witness for C5 at a reachable one-update container. -/
theorem C5_witness :
    ∃ v w, ((Undo.new (3 : Nat)).update fun n => n + 4).undo = some v ∧
      v.redo = some w ∧
      w.current_state =
        ((Undo.new (3 : Nat)).update fun n => n + 4).current_state ∧
      w.nb_updates =
        ((Undo.new (3 : Nat)).update fun n => n + 4).nb_updates ∧
      w.updates = ((Undo.new (3 : Nat)).update fun n => n + 4).updates ∧
      w.initial_state =
        ((Undo.new (3 : Nat)).update fun n => n + 4).initial_state :=
  C5_undo_redo_inverse
    (Undo.Reachable.update _ (Undo.Reachable.new 3)) (by decide)

/-- C6: after undoing `K ≥ 1` steps from a container whose cursor is within
the log and then calling `update` once, the cursor sits at the end of the
log and every number of subsequent `redo` calls leaves the container
unchanged. -/
theorem C6_truncation {u : Undo α} (hw : u.Wf) (K : Nat) (_hK : 1 ≤ K)
    (f : α → α) :
    ∃ v, Undo.undoN K u = some v ∧
      (v.update f).nb_updates = (v.update f).updates.length ∧
      ∀ m, Undo.redoN m (v.update f) = some (v.update f) := by
  obtain ⟨v, hv, hvw⟩ := Undo.undoN_some K hw
  exact ⟨v, hv, Undo.update_full hvw f,
    fun m => Undo.redoN_at_end (Undo.update_full hvw f) m⟩

/-- Witness for C6: undo once after two updates, then edit. -/
theorem C6_witness :
    ∃ v, Undo.undoN 1
        (((Undo.new (0 : Nat)).update fun n => n + 2).update fun n => n + 2)
        = some v ∧
      ((v.update fun n => n + 10).nb_updates =
        (v.update fun n => n + 10).updates.length) ∧
      ∀ m, Undo.redoN m (v.update fun n => n + 10)
        = some (v.update fun n => n + 10) :=
  C6_truncation (by show (2 : Nat) ≤ 2 ; decide) 1 (by decide) _

/-- C7: `undo` at cursor `0` and `redo` at cursor `= updates.length` return
the container unchanged (no panic), and any number of consecutive such
calls has no further effect. -/
theorem C7_boundary_noops (u : Undo α) :
    (u.nb_updates = 0 → ∀ m, Undo.undoN m u = some u) ∧
    (u.nb_updates = u.updates.length → ∀ m, Undo.redoN m u = some u) :=
  ⟨fun h m => Undo.undoN_at_start h m, fun h m => Undo.redoN_at_end h m⟩

/-- Witness for C7 on a freshly constructed container. -/
theorem C7_witness :
    Undo.undoN 3 (Undo.new (5 : Nat)) = some (Undo.new 5) ∧
    Undo.redoN 3 (Undo.new (5 : Nat)) = some (Undo.new 5) :=
  ⟨(C7_boundary_noops (Undo.new 5)).1 rfl 3,
    (C7_boundary_noops (Undo.new 5)).2 rfl 3⟩

/-- C8: `unwrap` returns exactly the value observable through the `Deref`
view: both are `current_state`, with no further transformation. -/
theorem C8_unwrap_fidelity (u : Undo α) : u.unwrap = Undo.deref u :=
  rfl

/-- C9: construction stores the input value as both `initial_state` and
`current_state` (two independent copies under value semantics), with an
empty log and a zero cursor, and is total. -/
theorem C9_construct (s : α) :
    (Undo.new s).initial_state = s ∧ (Undo.new s).current_state = s ∧
    (Undo.new s).updates = [] ∧ (Undo.new s).nb_updates = 0 :=
  ⟨rfl, rfl, rfl, rfl⟩

/-- C10: every reachable container keeps the cursor within the log, so the
slice taken inside `undo` and the index taken inside `redo` are in bounds
and neither call panics (both return `some`). -/
theorem C10_in_bounds {u : Undo α} (h : u.Reachable) :
    u.nb_updates ≤ u.updates.length ∧
    (∃ v, u.undo = some v) ∧ ∃ v, u.redo = some v := by
  obtain ⟨hw, hi⟩ := Undo.reachable_wf_inv h
  obtain ⟨v, hv, -, -, -, -⟩ := Undo.undo_some hw
  obtain ⟨w, hwr, -, -, -, -⟩ := Undo.redo_some hw hi
  exact ⟨hw, ⟨v, hv⟩, ⟨w, hwr⟩⟩

/-- Witness for C10 at a reachable one-update container. -/
theorem C10_witness :
    ((Undo.new (1 : Nat)).update fun n => n * 2).nb_updates
        ≤ ((Undo.new (1 : Nat)).update fun n => n * 2).updates.length ∧
      (∃ v, ((Undo.new (1 : Nat)).update fun n => n * 2).undo = some v) ∧
      ∃ v, ((Undo.new (1 : Nat)).update fun n => n * 2).redo = some v :=
  C10_in_bounds (Undo.Reachable.update _ (Undo.Reachable.new 1))
